import Mathlib

/-!
Verification of the atlaskit similarity-report and volume-info pipeline.

This file shallowly embeds the computational core of `atlas_report.py` and
`prob_label_vol_info.py`:

* `mean_triu_str` — NaN-aware mean of the strict upper triangle of a square
  similarity matrix (`atlas_report.py`, `mean_triu_str`);
* `load_metrics_intra` — the intra-observer branch of `load_metrics`: unique
  label/observer/template extraction via `np.unique` and the positional
  reshape of the dice/hausdorff columns into 4D tensors;
* `bb` — minimum bounding box of a boolean mask (`atlas_report.py`, `bb`);
* `coronal_montage` together with `montage2d` — coronal-section montage
  construction (`atlas_report.py`, `coronal_montage`; `skimage` `montage2d`);
* `Vr`, `Vl`, `LIp` — hemispheric volume integration and laterality index
  (`prob_label_vol_info.py`, `print_vol_info`).

Floating-point values are modelled as exact rationals; IEEE NaN (and, where a
division can blow up, infinity) is modelled by `Option ℚ` with `none` for the
non-finite case.  Machine floats introduce no further behaviour relevant to
the statements proved here; linspace values are modelled by their exact
rational values.
-/

/-! ## List indexing helper

`nthD l i d` is `l[i]` with default `d`, the indexing discipline used below to
model numpy positional indexing.  Self-contained so that all index lemmas are
proved from first principles. -/

def nthD {α : Type} : List α → Nat → α → α
  | [], _, d => d
  | a :: _, 0, _ => a
  | _ :: l, i + 1, d => nthD l i d

theorem nthD_nil {α : Type} (i : Nat) (d : α) : nthD [] i d = d := rfl

theorem nthD_cons_zero {α : Type} (a : α) (l : List α) (d : α) : nthD (a :: l) 0 d = a := rfl

theorem nthD_cons_succ {α : Type} (a : α) (l : List α) (i : Nat) (d : α) :
    nthD (a :: l) (i + 1) d = nthD l i d := rfl

theorem nthD_append_left {α : Type} (l l' : List α) (i : Nat) (d : α) (h : i < l.length) :
    nthD (l ++ l') i d = nthD l i d := by
  induction l generalizing i with
  | nil => simp at h
  | cons a t ih =>
    cases i with
    | zero => rfl
    | succ j =>
      simp only [List.cons_append, nthD_cons_succ]
      exact ih j (by simpa using Nat.lt_of_succ_lt_succ h)

theorem nthD_append_right {α : Type} (l l' : List α) (i : Nat) (d : α) :
    nthD (l ++ l') (l.length + i) d = nthD l' i d := by
  induction l with
  | nil => simp [nthD]
  | cons a t ih =>
    simpa [List.cons_append, Nat.succ_add, nthD_cons_succ] using ih

theorem nthD_map {α β : Type} (f : α → β) (l : List α) (i : Nat) (d : β) (d' : α)
    (h : i < l.length) : nthD (l.map f) i d = f (nthD l i d') := by
  induction l generalizing i with
  | nil => simp at h
  | cons a t ih =>
    cases i with
    | zero => rfl
    | succ j =>
      simp only [List.map_cons, nthD_cons_succ]
      exact ih j (by simpa using Nat.lt_of_succ_lt_succ h)

theorem nthD_range (n i : Nat) (d : Nat) (h : i < n) : nthD (List.range n) i d = i := by
  induction n with
  | zero => omega
  | succ m ih =>
    rw [List.range_succ]
    by_cases hi : i < m
    · rw [nthD_append_left _ _ _ _ (by simpa using hi)]
      exact ih hi
    · have him : i = m := by omega
      subst him
      have : nthD (List.range i ++ [i]) (List.length (List.range i) + 0) d = nthD [i] 0 d :=
        nthD_append_right _ _ _ _
      simpa using this

theorem nthD_mem {α : Type} (l : List α) (i : Nat) (d : α) (h : i < l.length) :
    nthD l i d ∈ l := by
  induction l generalizing i with
  | nil => simp at h
  | cons a t ih =>
    cases i with
    | zero => simp [nthD_cons_zero]
    | succ j =>
      simp only [nthD_cons_succ]
      exact List.mem_cons_of_mem _ (ih j (by simpa using Nat.lt_of_succ_lt_succ h))

/-! ## Uniform flattening

Index arithmetic for row-major (C-order) flattened nested lists, used to model
`numpy.reshape` as a pure memory-layout reinterpretation. -/

theorem nthD_flatten_uniform {α : Type} (d : α) (m : Nat) (Ls : List (List α)) (i j : Nat)
    (hu : ∀ l ∈ Ls, l.length = m) (hi : i < Ls.length) (hj : j < m) :
    nthD Ls.flatten (i * m + j) d = nthD (nthD Ls i []) j d := by
  induction Ls generalizing i with
  | nil => simp at hi
  | cons hd tl ih =>
    cases i with
    | zero =>
      have hhd : hd.length = m := hu hd (List.mem_cons_self _ _)
      simp only [List.flatten_cons, Nat.zero_mul, Nat.zero_add, nthD_cons_zero]
      exact nthD_append_left _ _ _ _ (hhd ▸ hj)
    | succ i' =>
      have hhd : hd.length = m := hu hd (List.mem_cons_self _ _)
      have hidx : (i' + 1) * m + j = hd.length + (i' * m + j) := by
        rw [hhd]; ring
      rw [List.flatten_cons, hidx, nthD_append_right, nthD_cons_succ]
      exact ih i' (fun l hl => hu l (List.mem_cons_of_mem _ hl))
        (by simpa using Nat.lt_of_succ_lt_succ hi)

theorem length_flatMap_range_const {α : Type} (n m : Nat) (F : Nat → List α)
    (h : ∀ i < n, (F i).length = m) : ((List.range n).flatMap F).length = n * m := by
  induction n with
  | zero => simp
  | succ k ih =>
    rw [List.range_succ,
      List.flatMap_append, List.length_append]
    rw [ih (fun i hi => h i (Nat.lt_succ_of_lt hi))]
    simp [h k (Nat.lt_succ_self k), Nat.succ_mul]

theorem nthD_flatMap_range {α : Type} (d : α) (m n : Nat) (F : Nat → List α)
    (hu : ∀ i < n, (F i).length = m) (i j : Nat) (hi : i < n) (hj : j < m) :
    nthD ((List.range n).flatMap F) (i * m + j) d = nthD (F i) j d := by
  rw [show (List.range n).flatMap F = ((List.range n).map F).flatten from rfl]
  rw [nthD_flatten_uniform d m _ i j ?hu (by simpa using hi) hj]
  · rw [nthD_map F _ _ _ 0 (by simpa using hi), nthD_range n i 0 hi]
  case hu =>
    intro l hl
    obtain ⟨a, ha, rfl⟩ := List.mem_map.1 hl
    exact hu a (List.mem_range.1 ha)

theorem block_index_lt (i r A m : Nat) (hi : i < A) (hr : r < m) : i * m + r < A * m := by
  calc i * m + r < i * m + m := Nat.add_lt_add_left hr _
    _ = (i + 1) * m := (Nat.succ_mul i m).symm
    _ ≤ A * m := Nat.mul_le_mul_right m hi

/-! ## Fixed-precision formatting

Model of Python `"%0.3f" % x`: the value is scaled by 1000, rounded to the
nearest integer (ties to even, as in IEEE default rounding), and printed with
exactly three digits after the decimal point. -/

def roundHalfEven (q : ℚ) : ℤ :=
  if q - ⌊q⌋ < 1 / 2 then ⌊q⌋
  else if (1 : ℚ) / 2 < q - ⌊q⌋ then ⌊q⌋ + 1
  else if ⌊q⌋ % 2 = 0 then ⌊q⌋ else ⌊q⌋ + 1

def pad3 (k : Nat) : String :=
  if k < 10 then "00" ++ toString k
  else if k < 100 then "0" ++ toString k
  else toString k

def fmt3 (q : ℚ) : String :=
  let m : ℤ := roundHalfEven (q * 1000)
  (if m < 0 then "-" else "") ++ toString (m.natAbs / 1000) ++ "." ++ pad3 (m.natAbs % 1000)

theorem fmt3_ne_dash (q : ℚ) : fmt3 q ≠ "-" := by
  intro h
  have hd : ('.' : Char) ∈ (fmt3 q).data := by
    show ('.' : Char) ∈ ((_ ++ _ ++ "." ++ _ : String)).data
    rw [String.data_append, String.data_append, String.data_append]
    refine List.mem_append.2 (Or.inl ?_)
    exact List.mem_append.2 (Or.inr (by simp [String.data]))
  rw [h] at hd
  simp at hd

/-! ## TriangularSummarizer: `mean_triu_str`

Embedding of `atlas_report.py:mean_triu_str`.  A square matrix is a size plus
an entry function; `none` models NaN.  `triuPairs n` is the row-major list of
strict-upper index pairs produced by `np.triu_indices(n, 1)`. -/

structure SqMat where
  n : Nat
  entry : Nat → Nat → Option ℚ

def triuPairs (n : Nat) : List (Nat × Nat) :=
  (List.range n).flatMap fun i =>
    ((List.range n).filter fun j => decide (i < j)).map fun j => (i, j)

def triuVals (x : SqMat) : List (Option ℚ) :=
  (triuPairs x.n).map fun p => x.entry p.1 p.2

/-- `np.nanmean`: arithmetic mean of the non-NaN values of a list. -/
def nanmean (l : List (Option ℚ)) : ℚ :=
  (l.filterMap id).sum / ((l.filterMap id).length : ℚ)

/-- `atlas_report.py:mean_triu_str`: mean of the strict upper triangle
(excluding NaNs, counted as in `np.sum(np.isnan(xut))`), `"-"` when the strict
upper triangle is entirely NaN. -/
def mean_triu_str (x : SqMat) : String :=
  if (triuVals x).countP (fun v => v.isNone) = (triuVals x).length then "-"
  else fmt3 (nanmean (triuVals x))

theorem mem_triuPairs {n : Nat} {p : Nat × Nat} :
    p ∈ triuPairs n ↔ p.1 < p.2 ∧ p.2 < n := by
  constructor
  · intro h
    simp only [triuPairs, List.mem_flatMap, List.mem_map, List.mem_filter,
      List.mem_range, decide_eq_true_eq] at h
    obtain ⟨i, _, j, ⟨hj, hij⟩, rfl⟩ := h
    exact ⟨hij, hj⟩
  · rintro ⟨hij, hj⟩
    simp only [triuPairs, List.mem_flatMap, List.mem_map, List.mem_filter,
      List.mem_range, decide_eq_true_eq]
    exact ⟨p.1, Nat.lt_trans hij hj, p.2, ⟨hj, hij⟩, rfl⟩

theorem filterMap_id_map_eq {α : Type} (f : α → Option ℚ) (l : List α) :
    (l.map f).filterMap id
      = (l.filter fun a => (f a).isSome).map fun a => (f a).getD 0 := by
  induction l with
  | nil => rfl
  | cons a t ih =>
    cases h : f a with
    | none => simp [List.filterMap_cons, List.filter_cons, h, ih]
    | some v => simp [List.filterMap_cons, List.filter_cons, h, ih]

theorem nodup_triuPairs (n : Nat) : (triuPairs n).Nodup := by
  unfold triuPairs
  rw [List.nodup_flatMap]
  constructor
  · intro i _
    refine List.Nodup.map ?_ ((List.nodup_range n).filter _)
    intro a b hab
    exact congrArg Prod.snd hab
  · refine (List.pairwise_lt_range n).imp ?_
    intro a b hab p hpa hpb
    obtain ⟨j, _, rfl⟩ := List.mem_map.1 hpa
    obtain ⟨k, _, hk⟩ := List.mem_map.1 hpb
    exact absurd (congrArg Prod.fst hk).symm (Nat.ne_of_lt hab)

/-- Spec-side definition (§4.2 / §8): the set of strictly-upper, non-NaN index
pairs of a square matrix, as a finite set. -/
def specUpperSet (x : SqMat) : Finset (Nat × Nat) :=
  (Finset.range x.n ×ˢ Finset.range x.n).filter fun p =>
    p.1 < p.2 ∧ (x.entry p.1 p.2).isSome

/-- Spec-side definition: the arithmetic mean of the set
of values at strictly-upper, non-NaN positions. -/
def specUpperMean (x : SqMat) : ℚ :=
  (∑ p ∈ specUpperSet x, (x.entry p.1 p.2).getD 0) / ((specUpperSet x).card : ℚ)

theorem filter_triuPairs_toFinset (x : SqMat) :
    ((triuPairs x.n).filter fun p => (x.entry p.1 p.2).isSome).toFinset
      = specUpperSet x := by
  ext p
  simp only [List.mem_toFinset, List.mem_filter, specUpperSet, Finset.mem_filter,
    Finset.mem_product, Finset.mem_range, mem_triuPairs]
  constructor
  · rintro ⟨⟨h12, h2n⟩, hs⟩
    exact ⟨⟨Nat.lt_trans h12 h2n, h2n⟩, h12, by simpa using hs⟩
  · rintro ⟨⟨_, h2n⟩, h12, hs⟩
    exact ⟨⟨h12, h2n⟩, by simpa using hs⟩

theorem nanmean_eq_specUpperMean (x : SqMat) :
    nanmean (triuVals x) = specUpperMean x := by
  have hfm : (triuVals x).filterMap id
      = ((triuPairs x.n).filter fun p => (x.entry p.1 p.2).isSome).map
          fun p => (x.entry p.1 p.2).getD 0 := filterMap_id_map_eq _ _
  have hnd : ((triuPairs x.n).filter fun p => (x.entry p.1 p.2).isSome).Nodup :=
    (nodup_triuPairs x.n).filter _
  unfold nanmean specUpperMean
  rw [hfm, ← filter_triuPairs_toFinset x, List.sum_toFinset _ hnd,
    List.toFinset_card_of_nodup hnd, List.length_map]

theorem countP_isNone_eq_length_iff (x : SqMat) :
    (triuVals x).countP (fun v => v.isNone) = (triuVals x).length ↔
      ∀ i j, i < j → j < x.n → x.entry i j = none := by
  rw [List.countP_eq_length]
  constructor
  · intro hall i j hij hjn
    have hmem : x.entry i j ∈ triuVals x :=
      List.mem_map.2 ⟨(i, j), mem_triuPairs.2 ⟨hij, hjn⟩, rfl⟩
    simpa [Option.isNone_iff_eq_none] using hall _ hmem
  · intro hnone v hv
    obtain ⟨p, hp, rfl⟩ := List.mem_map.1 hv
    obtain ⟨h12, h2n⟩ := mem_triuPairs.1 hp
    simp [hnone p.1 p.2 h12 h2n]

/-! ### Example matrices from the specification (§8) -/

def exAllNaN : SqMat := ⟨3, fun _ _ => none⟩

def exPartial : SqMat :=
  ⟨3, fun i j =>
    if i = 0 ∧ j = 1 then some (4 / 5)
    else if i = 1 ∧ j = 2 then some (3 / 5)
    else none⟩

def exWitness : SqMat := ⟨2, fun i j => if i = 0 ∧ j = 1 then some (1 / 2) else none⟩

theorem fmt3_seven_tenths : fmt3 ((7 : ℚ) / 10) = "0.700" := by
  have hm : roundHalfEven ((7 : ℚ) / 10 * 1000) = 700 := by
    unfold roundHalfEven
    norm_num
  simp only [fmt3]
  rw [hm]
  decide

theorem mean_triu_str_exPartial : mean_triu_str exPartial = "0.700" := by
  have h1 : nanmean (triuVals exPartial) = ((4 : ℚ) / 5 + (3 / 5 + 0)) / ((2 : Nat) : ℚ) := rfl
  have h2 : ((4 : ℚ) / 5 + (3 / 5 + 0)) / ((2 : Nat) : ℚ) = 7 / 10 := by norm_num
  unfold mean_triu_str
  rw [if_neg (by decide), h1, h2, fmt3_seven_tenths]

/-- C3: `mean_triu_str` returns the sentinel `"-"` iff every strictly-upper
entry is NaN (vacuously including matrices without strictly-upper entries);
on the spec examples, the 3×3 matrix with strictly-upper entries
`[NaN, NaN, NaN]` yields `"-"` and the one with `[0.8, NaN, 0.6]` yields
`"0.700"`. -/
theorem mean_triu_str_dash_iff :
    (∀ x : SqMat, mean_triu_str x = "-" ↔ ∀ i j, i < j → j < x.n → x.entry i j = none)
    ∧ mean_triu_str exAllNaN = "-" ∧ mean_triu_str exPartial = "0.700" := by
  refine ⟨fun x => ?_, by decide, mean_triu_str_exPartial⟩
  rw [← countP_isNone_eq_length_iff]
  unfold mean_triu_str
  by_cases h : (triuVals x).countP (fun v => v.isNone) = (triuVals x).length
  · simp [h]
  · rw [if_neg h]
    exact ⟨fun hf => absurd hf (fmt3_ne_dash _), fun hc => absurd hc h⟩

/-- C2: for any square matrix with at least one non-NaN strictly-upper entry,
`mean_triu_str` returns the 3-decimal fixed-precision rendering of the
arithmetic mean of the set of non-NaN strictly-upper entries, and the result
depends only on the strictly-upper entries (diagonal and lower triangle are
irrelevant). -/
theorem mean_triu_str_spec (x y : SqMat) (hn : y.n = x.n)
    (hagree : ∀ i j, i < j → j < x.n → y.entry i j = x.entry i j)
    (hex : ∃ i j, i < j ∧ j < x.n ∧ x.entry i j ≠ none) :
    mean_triu_str x = fmt3 (specUpperMean x) ∧ mean_triu_str y = mean_triu_str x := by
  have htri : triuVals y = triuVals x := by
    unfold triuVals
    rw [hn]
    refine List.map_congr_left ?_
    intro p hp
    obtain ⟨h12, h2n⟩ := mem_triuPairs.1 hp
    exact hagree p.1 p.2 h12 h2n
  have hne : ¬((triuVals x).countP (fun v => v.isNone) = (triuVals x).length) := by
    intro h
    obtain ⟨i, j, hij, hjn, hnone⟩ := hex
    exact hnone ((countP_isNone_eq_length_iff x).1 h i j hij hjn)
  constructor
  · unfold mean_triu_str
    rw [if_neg hne, nanmean_eq_specUpperMean]
  · unfold mean_triu_str
    rw [htri]

/-- Witness for C2 at a concrete 2×2 matrix with one finite upper entry. -/
theorem mean_triu_str_spec_witness :
    mean_triu_str exWitness = fmt3 (specUpperMean exWitness) ∧
      mean_triu_str exWitness = mean_triu_str exWitness :=
  mean_triu_str_spec exWitness exWitness rfl (fun _ _ _ _ => rfl)
    ⟨0, 1, by decide, by decide, by decide⟩

/-! ## MetricsStore: `load_metrics` (intra-observer branch)

Embedding of `atlas_report.py:load_metrics` for the intra-observer CSV.  A
`MetricsRow` is one parsed CSV row (`labelName, labelNo, observer, tmpA, tmpB,
dice, haus`; the ignored voxel counts `nA`, `nB` are omitted).  `npUnique`
models `np.unique` (sorted distinct values); `firstIdxNat` models the
`return_index` companion array (index of the first occurrence of each unique
value).  The inter-observer branch of the source is structurally identical
with `(template, obsA, obsB)` in place of `(observer, tmpA, tmpB)`. -/

structure MetricsRow where
  labelName : String
  labelNo : Nat
  observer : Nat
  tmpA : Nat
  tmpB : Nat
  dice : Option ℚ
  haus : Option ℚ

def defaultRow : MetricsRow := ⟨"", 0, 0, 0, 0, none, none⟩

/-- `np.unique`: the distinct values of a list, sorted ascending. -/
def npUnique (xs : List Nat) : List Nat :=
  List.insertionSort (· ≤ ·) xs.dedup

/-- Index of the first occurrence of `v` in a list (the `return_index`
output of `np.unique` for the unique value `v`). -/
def firstIdxNat (v : Nat) : List Nat → Nat
  | [] => 0
  | a :: l => if a = v then 0 else firstIdxNat v l + 1

/-- Result record of the intra-observer half of `load_metrics`: the
`intra_metrics` tuple.  `dice l g a b` is the C-order reshape lookup
`dice.reshape(n_labels, n_observers, n_templates, n_templates)[l, g, a, b]`
(valid under the row-count contract `rows.length =
n_labels * n_observers * n_templates * n_templates`). -/
structure IntraMetrics where
  label_names : List String
  label_nos : List Nat
  observers : List Nat
  templates : List Nat
  dice : Nat → Nat → Nat → Nat → Option ℚ
  haus : Nat → Nat → Nat → Nat → Option ℚ

def load_metrics_intra (rows : List MetricsRow) : IntraMetrics :=
  let ls := rows.map (fun r => r.labelNo)
  let label_nos := npUnique ls
  let idx := label_nos.map (fun v => firstIdxNat v ls)
  let label_names := idx.map (fun i => (nthD rows i defaultRow).labelName)
  let observers := npUnique (rows.map (fun r => r.observer))
  let templates := npUnique (rows.map (fun r => r.tmpA))
  let nObs := observers.length
  let nTmp := templates.length
  { label_names := label_names
    label_nos := label_nos
    observers := observers
    templates := templates
    dice := fun l g a b =>
      nthD (rows.map (fun r => r.dice)) (((l * nObs + g) * nTmp + a) * nTmp + b) none
    haus := fun l g a b =>
      nthD (rows.map (fun r => r.haus)) (((l * nObs + g) * nTmp + a) * nTmp + b) none }

/-- A metrics CSV generated by the nested iteration
label (outer) → observer → template-A → template-B, with synthetic dice and
hausdorff values `fd`/`fh`, label numbers `lab` and label names `nm`. -/
def genRows (L G P : Nat) (nm : Nat → String) (lab : Nat → Nat)
    (fd fh : Nat → Nat → Nat → Nat → ℚ) : List MetricsRow :=
  (List.range L).flatMap fun l =>
    (List.range G).flatMap fun g =>
      (List.range P).flatMap fun a =>
        (List.range P).map fun b =>
          ⟨nm l, lab l, g, a, b, some (fd l g a b), some (fh l g a b)⟩

theorem npUnique_eq_range (xs : List Nat) (n : Nat) (h : ∀ x, x ∈ xs ↔ x < n) :
    npUnique xs = List.range n := by
  have hperm : (npUnique xs).Perm (List.range n) := by
    refine (List.perm_insertionSort _ _).trans ?_
    rw [List.perm_ext_iff_of_nodup (List.nodup_dedup xs) (List.nodup_range n)]
    intro a
    rw [List.mem_dedup, h, List.mem_range]
  refine List.eq_of_perm_of_sorted hperm (List.sorted_insertionSort _ _) ?_
  exact (List.pairwise_lt_range n).imp Nat.le_of_lt

theorem mem_map_observer_genRows (L G P : Nat) (nm : Nat → String) (lab : Nat → Nat)
    (fd fh : Nat → Nat → Nat → Nat → ℚ) (hL : 0 < L) (hP : 0 < P) (x : Nat) :
    x ∈ (genRows L G P nm lab fd fh).map (fun r => r.observer) ↔ x < G := by
  simp only [genRows, List.mem_map, List.mem_flatMap, List.mem_range]
  constructor
  · rintro ⟨r, ⟨l, hl, g, hg, a, ha, b, hb, rfl⟩, rfl⟩
    exact hg
  · intro hx
    exact ⟨_, ⟨0, hL, x, hx, 0, hP, 0, hP, rfl⟩, rfl⟩

theorem mem_map_tmpA_genRows (L G P : Nat) (nm : Nat → String) (lab : Nat → Nat)
    (fd fh : Nat → Nat → Nat → Nat → ℚ) (hL : 0 < L) (hG : 0 < G) (hP : 0 < P) (x : Nat) :
    x ∈ (genRows L G P nm lab fd fh).map (fun r => r.tmpA) ↔ x < P := by
  simp only [genRows, List.mem_map, List.mem_flatMap, List.mem_range]
  constructor
  · rintro ⟨r, ⟨l, hl, g, hg, a, ha, b, hb, rfl⟩, rfl⟩
    exact ha
  · intro hx
    exact ⟨_, ⟨0, hL, 0, hG, x, hx, 0, hP, rfl⟩, rfl⟩

theorem map_dice_genRows (L G P : Nat) (nm : Nat → String) (lab : Nat → Nat)
    (fd fh : Nat → Nat → Nat → Nat → ℚ) :
    (genRows L G P nm lab fd fh).map (fun r => r.dice)
      = (List.range L).flatMap fun l =>
          (List.range G).flatMap fun g =>
            (List.range P).flatMap fun a =>
              (List.range P).map fun b => some (fd l g a b) := by
  simp only [genRows, List.map_flatMap, List.map_map]
  rfl

theorem map_haus_genRows (L G P : Nat) (nm : Nat → String) (lab : Nat → Nat)
    (fd fh : Nat → Nat → Nat → Nat → ℚ) :
    (genRows L G P nm lab fd fh).map (fun r => r.haus)
      = (List.range L).flatMap fun l =>
          (List.range G).flatMap fun g =>
            (List.range P).flatMap fun a =>
              (List.range P).map fun b => some (fh l g a b) := by
  simp only [genRows, List.map_flatMap, List.map_map]
  rfl

theorem nthD_gen4 {α : Type} (d : α) (L G P : Nat) (v : Nat → Nat → Nat → Nat → α)
    (l g a b : Nat) (hl : l < L) (hg : g < G) (ha : a < P) (hb : b < P) :
    nthD ((List.range L).flatMap fun lq =>
      (List.range G).flatMap fun gq =>
        (List.range P).flatMap fun aq =>
          (List.range P).map fun bq => v lq gq aq bq) (((l * G + g) * P + a) * P + b) d
      = v l g a b := by
  have len3 : ∀ lq gq : Nat, ∀ aq, aq < P →
      ((List.range P).map fun bq => v lq gq aq bq).length = P := by
    intro lq gq aq _
    simp
  have len2 : ∀ lq : Nat, ∀ gq, gq < G →
      ((List.range P).flatMap fun aq =>
        (List.range P).map fun bq => v lq gq aq bq).length = P * P :=
    fun lq gq _ => length_flatMap_range_const P P _ (len3 lq gq)
  have len1 : ∀ lq, lq < L →
      ((List.range G).flatMap fun gq =>
        (List.range P).flatMap fun aq =>
          (List.range P).map fun bq => v lq gq aq bq).length = G * (P * P) :=
    fun lq _ => length_flatMap_range_const G (P * P) _ (len2 lq)
  have hr2 : a * P + b < P * P := block_index_lt a b P P ha hb
  have hr1 : g * (P * P) + (a * P + b) < G * (P * P) := block_index_lt g _ G (P * P) hg hr2
  have hidx : ((l * G + g) * P + a) * P + b
      = l * (G * (P * P)) + (g * (P * P) + (a * P + b)) := by ring
  rw [hidx]
  rw [nthD_flatMap_range d (G * (P * P)) L _ len1 l _ hl hr1]
  rw [nthD_flatMap_range d (P * P) G _ (len2 l) g _ hg hr2]
  rw [nthD_flatMap_range d P P _ (len3 l g) a b ha hb]
  rw [nthD_map _ _ _ _ 0 (by simpa using hb), nthD_range P b 0 hb]

/-- C1: for a metrics CSV whose rows are generated by the nested iteration
label (outer) → group (observer) → pair-A → pair-B, the positional reshape
performed by `load_metrics_intra` (no sorting step) places the dice and
hausdorff values of the row with loop indices `(l, g, a, b)` exactly at
tensor index `[l, g, a, b]`. -/
theorem load_metrics_reshape_places_rows (L G P : Nat) (nm : Nat → String) (lab : Nat → Nat)
    (fd fh : Nat → Nat → Nat → Nat → ℚ) (l g a b : Nat)
    (hl : l < L) (hg : g < G) (ha : a < P) (hb : b < P) :
    (load_metrics_intra (genRows L G P nm lab fd fh)).dice l g a b = some (fd l g a b) ∧
    (load_metrics_intra (genRows L G P nm lab fd fh)).haus l g a b = some (fh l g a b) := by
  have hL : 0 < L := Nat.lt_of_le_of_lt (Nat.zero_le l) hl
  have hG : 0 < G := Nat.lt_of_le_of_lt (Nat.zero_le g) hg
  have hP : 0 < P := Nat.lt_of_le_of_lt (Nat.zero_le a) ha
  have hobs : npUnique ((genRows L G P nm lab fd fh).map (fun r => r.observer))
      = List.range G :=
    npUnique_eq_range _ G (mem_map_observer_genRows L G P nm lab fd fh hL hP)
  have htmp : npUnique ((genRows L G P nm lab fd fh).map (fun r => r.tmpA))
      = List.range P :=
    npUnique_eq_range _ P (mem_map_tmpA_genRows L G P nm lab fd fh hL hG hP)
  constructor
  · simp only [load_metrics_intra]
    rw [hobs, htmp, List.length_range, List.length_range, map_dice_genRows]
    exact nthD_gen4 none L G P _ l g a b hl hg ha hb
  · simp only [load_metrics_intra]
    rw [hobs, htmp, List.length_range, List.length_range, map_haus_genRows]
    exact nthD_gen4 none L G P _ l g a b hl hg ha hb

def fdW : Nat → Nat → Nat → Nat → ℚ := fun l g a b => (l + 2 * g + 3 * a + 5 * b : ℚ)

/-- Witness for C1: a concrete 1-label, 1-observer, 2-template nested-order
file; the value generated at loop indices `(0,0,0,1)` lands at tensor index
`[0,0,0,1]`. -/
theorem load_metrics_reshape_places_rows_witness :
    (load_metrics_intra (genRows 1 1 2 (fun _ => "amygdala") (fun l => l + 7) fdW
        (fun _ _ _ _ => 0))).dice 0 0 0 1 = some (fdW 0 0 0 1) ∧
    (load_metrics_intra (genRows 1 1 2 (fun _ => "amygdala") (fun l => l + 7) fdW
        (fun _ _ _ _ => 0))).haus 0 0 0 1 = some (0 : ℚ) :=
  load_metrics_reshape_places_rows 1 1 2 (fun _ => "amygdala") (fun l => l + 7) fdW
    (fun _ _ _ _ => 0) 0 0 0 1 (by decide) (by decide) (by decide) (by decide)

theorem firstIdxNat_lt_length (v : Nat) (l : List Nat) (h : v ∈ l) :
    firstIdxNat v l < l.length := by
  induction l with
  | nil => simp at h
  | cons a t ih =>
    by_cases ha : a = v
    · simp [firstIdxNat, ha]
    · have hv : v ∈ t := by
        rcases List.mem_cons.1 h with h1 | h1
        · exact absurd h1.symm ha
        · exact h1
      simp only [firstIdxNat, if_neg ha, List.length_cons]
      exact Nat.succ_lt_succ (ih hv)

theorem nthD_firstIdxNat (v : Nat) (l : List Nat) (d : Nat) (h : v ∈ l) :
    nthD l (firstIdxNat v l) d = v := by
  induction l with
  | nil => simp at h
  | cons a t ih =>
    by_cases ha : a = v
    · simp [firstIdxNat, ha, nthD_cons_zero]
    · have hv : v ∈ t := by
        rcases List.mem_cons.1 h with h1 | h1
        · exact absurd h1.symm ha
        · exact h1
      simp only [firstIdxNat, if_neg ha, nthD_cons_succ]
      exact ih hv

theorem firstIdxNat_minimal (v : Nat) (l : List Nat) (d : Nat) (j : Nat)
    (hj : j < firstIdxNat v l) : nthD l j d ≠ v := by
  induction l generalizing j with
  | nil => simp [firstIdxNat] at hj
  | cons a t ih =>
    by_cases ha : a = v
    · simp [firstIdxNat, ha] at hj
    · rw [firstIdxNat, if_neg ha] at hj
      cases j with
      | zero =>
        rw [nthD_cons_zero]
        exact ha
      | succ jq =>
        rw [nthD_cons_succ]
        exact ih jq (Nat.lt_of_succ_lt_succ hj)

theorem mem_npUnique (xs : List Nat) (v : Nat) : v ∈ npUnique xs ↔ v ∈ xs := by
  unfold npUnique
  rw [(List.perm_insertionSort _ _).mem_iff]
  exact List.mem_dedup

theorem npUnique_sorted_lt (xs : List Nat) : (npUnique xs).Sorted (· < ·) := by
  have h1 : (npUnique xs).Sorted (· ≤ ·) := List.sorted_insertionSort _ _
  have h2 : (npUnique xs).Nodup :=
    ((List.perm_insertionSort _ _).nodup_iff).2 (List.nodup_dedup _)
  exact (List.Pairwise.and h1 h2).imp fun h => lt_of_le_of_ne h.1 h.2

/-- The two-row out-of-order metrics file used against C9: label numbers
appear in file order `[2, 1]`. -/
def rowsOutOfOrder : List MetricsRow :=
  [⟨"B", 2, 0, 0, 0, none, none⟩, ⟨"A", 1, 0, 0, 0, none, none⟩]

/-- Spec-side definition (C9's wording): the distinct values of a list in
order of first appearance. -/
def distinctFirstAppearance : List Nat → List Nat
  | [] => []
  | a :: l => a :: (distinctFirstAppearance l).filter fun x => decide (x ≠ a)

/-- Counterexample to C9 as stated: on a file whose label numbers appear in
the order `[2, 1]`, `load_metrics_intra` returns them as `[1, 2]` (sorted,
via `np.unique`), not in the first-appearance order `[2, 1]`. -/
theorem load_metrics_label_order_counterexample :
    (load_metrics_intra rowsOutOfOrder).label_nos = [1, 2] ∧
    distinctFirstAppearance (rowsOutOfOrder.map (fun r => r.labelNo)) = [2, 1] ∧
    (load_metrics_intra rowsOutOfOrder).label_nos
      ≠ distinctFirstAppearance (rowsOutOfOrder.map (fun r => r.labelNo)) := by
  refine ⟨?_, ?_, ?_⟩ <;> decide

/-- C9 (amended): `load_metrics_intra` returns the distinct label numbers in
ascending sorted order (the `np.unique` order, not first-appearance order),
and for each distinct label number the associated label name is the one from
the first row bearing that label number. -/
theorem load_metrics_labels_sorted_first_name (rows : List MetricsRow) (k : Nat)
    (hk : k < (load_metrics_intra rows).label_nos.length) :
    (load_metrics_intra rows).label_nos.Sorted (· < ·) ∧
    (∀ v, v ∈ (load_metrics_intra rows).label_nos ↔ v ∈ rows.map (fun r => r.labelNo)) ∧
    ∃ i, i < rows.length ∧
      (nthD rows i defaultRow).labelNo = nthD (load_metrics_intra rows).label_nos k 0 ∧
      (∀ j, j < i →
        (nthD rows j defaultRow).labelNo ≠ nthD (load_metrics_intra rows).label_nos k 0) ∧
      nthD (load_metrics_intra rows).label_names k "" = (nthD rows i defaultRow).labelName := by
  simp only [load_metrics_intra] at hk ⊢
  refine ⟨npUnique_sorted_lt _, fun v => mem_npUnique _ v, ?_⟩
  set ls := rows.map (fun r => r.labelNo) with hls
  set v := nthD (npUnique ls) k 0 with hv
  have hvmem : v ∈ ls := (mem_npUnique ls v).1 (nthD_mem _ k 0 hk)
  have hlen : ls.length = rows.length := List.length_map _ _
  have hilt : firstIdxNat v ls < rows.length := hlen ▸ firstIdxNat_lt_length v ls hvmem
  refine ⟨firstIdxNat v ls, hilt, ?_, ?_, ?_⟩
  · have := nthD_firstIdxNat v ls 0 hvmem
    rwa [hls, nthD_map _ _ _ _ defaultRow (hlen ▸ hilt)] at this
  · intro j hj
    have hjlt : j < rows.length := Nat.lt_trans hj hilt
    have := firstIdxNat_minimal v ls 0 j hj
    rwa [hls, nthD_map _ _ _ _ defaultRow hjlt] at this
  · have hk2 : k < ((npUnique ls).map fun w => firstIdxNat w ls).length := by
      simpa using hk
    rw [nthD_map _ _ _ _ 0 hk2, nthD_map _ _ _ _ 0 hk]

/-- Witness for C9 (amended) at the two-row out-of-order file. -/
theorem load_metrics_labels_sorted_first_name_witness :
    (load_metrics_intra rowsOutOfOrder).label_nos.Sorted (· < ·) ∧
    (∀ v, v ∈ (load_metrics_intra rowsOutOfOrder).label_nos ↔
      v ∈ rowsOutOfOrder.map (fun r => r.labelNo)) ∧
    ∃ i, i < rowsOutOfOrder.length ∧
      (nthD rowsOutOfOrder i defaultRow).labelNo
        = nthD (load_metrics_intra rowsOutOfOrder).label_nos 0 0 ∧
      (∀ j, j < i → (nthD rowsOutOfOrder j defaultRow).labelNo
        ≠ nthD (load_metrics_intra rowsOutOfOrder).label_nos 0 0) ∧
      nthD (load_metrics_intra rowsOutOfOrder).label_names 0 ""
        = (nthD rowsOutOfOrder i defaultRow).labelName :=
  load_metrics_labels_sorted_first_name rowsOutOfOrder 0 (by decide)

/-! ## VolumeIntegrator: `print_vol_info`

Embedding of the per-label volume integration of
`prob_label_vol_info.py:print_vol_info`.  A 4D probability volume is a shape
plus a voxel function; `vox` is the scalar voxel volume
(`atlas_vox_vol_ul`). -/

structure Vol4 where
  nx : Nat
  ny : Nat
  nz : Nat
  nt : Nat
  data : Nat → Nat → Nat → Nat → ℚ

/-- `np.sum(p[lo:hi, :, :, t])` (numpy half-open slice on the first axis). -/
def sumX (p : Vol4) (lo hi : Nat) (t : Nat) : ℚ :=
  ((List.range' lo (hi - lo)).map fun x =>
    ((List.range p.ny).map fun y =>
      ((List.range p.nz).map fun z => p.data x y z t).sum).sum).sum

/-- `hx = int(nx/2)`: the hemisphere split index. -/
def hx (nx : Nat) : Nat := nx / 2

/-- `Vr = np.sum(p[0:hx, :, :, t]) * atlas_vox_vol_ul`. -/
def Vr (p : Vol4) (vox : ℚ) (t : Nat) : ℚ := sumX p 0 (hx p.nx) t * vox

/-- `Vl = np.sum(p[hx:-1, :, :, t]) * atlas_vox_vol_ul` — as written in the
source: the slice `hx:-1` stops one short of the last first-axis index. -/
def Vl (p : Vol4) (vox : ℚ) (t : Nat) : ℚ := sumX p (hx p.nx) (p.nx - 1) t * vox

/-- `LIp = (Vl - Vr) / (Vl + Vr) * 100.0`; `none` models the non-finite
float (0/0 → NaN) produced when the denominator is zero — the computation
itself never raises. -/
def LIp (p : Vol4) (vox : ℚ) (t : Nat) : Option ℚ :=
  if Vl p vox t + Vr p vox t = 0 then none
  else some ((Vl p vox t - Vr p vox t) / (Vl p vox t + Vr p vox t) * 100)

/-- Per the claim (§4.6): the left volume integrates all voxels with
first-axis index at or above the split, i.e. `x ∈ [hx, nx)` inclusive of the
last slice. -/
def Vl_claim (p : Vol4) (vox : ℚ) (t : Nat) : ℚ := sumX p (hx p.nx) p.nx t * vox

/-- All probability mass at the last first-axis index (x = 1 = nx − 1 ≥ hx). -/
def vC4 : Vol4 := ⟨2, 1, 1, 1, fun x _ _ _ => if x = 1 then 1 else 0⟩

/-- C4 (code bug evaluation): for a 2×1×1×1 volume with all mass at x = 1
(the left hemisphere per the stated convention) and unit voxel volume, the
claim demands laterality exactly +100, but the code's `p[hx:-1]` slice drops
the last x-slice: it computes Vl = Vr = 0 and emits the NaN sentinel, while
the claim-side left volume is 1. -/
theorem print_vol_info_drops_last_slice :
    Vr vC4 1 0 = 0 ∧ Vl vC4 1 0 = 0 ∧ LIp vC4 1 0 = none ∧ Vl_claim vC4 1 0 = 1 := by
  have e1 : List.range' 0 (hx 2) = [0] := by decide
  have e2 : List.range' (hx 2) (1 - hx 2) = [] := by decide
  have e3 : List.range' (hx 2) (2 - hx 2) = [1] := by decide
  have e4 : List.range 1 = [0] := by decide
  have hVr : Vr vC4 1 0 = 0 := by
    simp [Vr, sumX, vC4, e1, e4]
  have hVl : Vl vC4 1 0 = 0 := by
    simp [Vl, sumX, vC4, e2]
  have hLIp : LIp vC4 1 0 = none := by
    unfold LIp
    rw [hVr, hVl]
    norm_num
  have hClaim : Vl_claim vC4 1 0 = 1 := by
    simp [Vl_claim, sumX, vC4, e3, e4]
  exact ⟨hVr, hVl, hLIp, hClaim⟩

/-- C6: when both computed hemisphere volumes are zero, the laterality
division is 0/0 and `LIp` yields the NaN sentinel; the embedding is a total
function, so no exception is raised or propagated. -/
theorem LIp_zero_volumes_sentinel (p : Vol4) (vox : ℚ) (t : Nat)
    (hl : Vl p vox t = 0) (hr : Vr p vox t = 0) : LIp p vox t = none := by
  unfold LIp
  rw [hl, hr]
  norm_num

/-- The all-zero 1×1×1×1 volume. -/
def pZero : Vol4 := ⟨1, 1, 1, 1, fun _ _ _ _ => 0⟩

/-- Witness for C6 at the all-zero volume. -/
theorem LIp_zero_volumes_sentinel_witness : LIp pZero 1 0 = none :=
  LIp_zero_volumes_sentinel pZero 1 0
    (by simp [Vl, sumX, hx, pZero])
    (by simp [Vr, sumX, hx, pZero])

/-- C10: for a nonnegative probability volume and positive voxel volume,
whenever the sum of the computed hemisphere volumes is nonzero, the
laterality index is defined and lies in [−100, 100]. -/
theorem LIp_range_bounds (p : Vol4) (vox : ℚ) (t : Nat)
    (hnn : ∀ x y z s, 0 ≤ p.data x y z s) (hvox : 0 < vox)
    (hne : Vl p vox t + Vr p vox t ≠ 0) :
    ∃ q, LIp p vox t = some q ∧ -100 ≤ q ∧ q ≤ 100 := by
  have hsum : ∀ lo hi, 0 ≤ sumX p lo hi t := by
    intro lo hi
    refine List.sum_nonneg ?_
    intro a ha
    obtain ⟨x, _, rfl⟩ := List.mem_map.1 ha
    refine List.sum_nonneg ?_
    intro b hb
    obtain ⟨y, _, rfl⟩ := List.mem_map.1 hb
    refine List.sum_nonneg ?_
    intro c hc
    obtain ⟨z, _, rfl⟩ := List.mem_map.1 hc
    exact hnn x y z t
  have hVl : 0 ≤ Vl p vox t := mul_nonneg (hsum _ _) (le_of_lt hvox)
  have hVr : 0 ≤ Vr p vox t := mul_nonneg (hsum _ _) (le_of_lt hvox)
  have hs : 0 < Vl p vox t + Vr p vox t := lt_of_le_of_ne (add_nonneg hVl hVr) (Ne.symm hne)
  refine ⟨(Vl p vox t - Vr p vox t) / (Vl p vox t + Vr p vox t) * 100, ?_, ?_, ?_⟩
  · unfold LIp
    rw [if_neg hne]
  · have h1 : (-1 : ℚ) ≤ (Vl p vox t - Vr p vox t) / (Vl p vox t + Vr p vox t) :=
      (le_div_iff₀ hs).2 (by linarith)
    linarith
  · have h2 : (Vl p vox t - Vr p vox t) / (Vl p vox t + Vr p vox t) ≤ 1 :=
      (div_le_one hs).2 (by linarith)
    linarith

/-- The all-ones 2×1×1×1 volume. -/
def pOnes : Vol4 := ⟨2, 1, 1, 1, fun _ _ _ _ => 1⟩

/-- Witness for C10 at the all-ones volume with unit voxel volume. -/
theorem LIp_range_bounds_witness :
    ∃ q, LIp pOnes 1 0 = some q ∧ -100 ≤ q ∧ q ≤ 100 :=
  LIp_range_bounds pOnes 1 0 (fun _ _ _ _ => zero_le_one) one_pos
    (by
      have e1 : List.range' 0 (hx 2) = [0] := by decide
      have e2 : List.range' (hx 2) (1 - hx 2) = [] := by decide
      have e4 : List.range 1 = [0] := by decide
      simp [Vl, Vr, sumX, pOnes, e1, e2, e4])

/-! ## BoundingBoxFinder: `bb`

Embedding of `atlas_report.py:bb`.  The source computes per-axis maximum
intensity projections, takes `np.nonzero` of each, and calls `np.min`/`np.max`
on the resulting index arrays; on an empty index array numpy raises its
empty-reduction `ValueError` (there is no explicit empty-mask check in the
source).  `NpError.emptyMaskError` is the distinguished error named by the
specification, included in the error type only so that the two failure modes
can be compared; the translated code never produces it. -/

structure Mask3 where
  nx : Nat
  ny : Nat
  nz : Nat
  data : Nat → Nat → Nat → Bool

inductive NpError where
  | valueError : NpError
  | emptyMaskError : NpError
deriving DecidableEq

/-- `xproj = np.max(np.max(mask, axis=2), axis=1)` at index `x`. -/
def xproj (m : Mask3) (x : Nat) : Bool :=
  (List.range m.ny).any fun y => (List.range m.nz).any fun z => m.data x y z

/-- `yproj = np.max(np.max(mask, axis=2), axis=0)` at index `y`. -/
def yproj (m : Mask3) (y : Nat) : Bool :=
  (List.range m.nx).any fun x => (List.range m.nz).any fun z => m.data x y z

/-- `zproj = np.max(np.max(mask, axis=1), axis=0)` at index `z`. -/
def zproj (m : Mask3) (z : Nat) : Bool :=
  (List.range m.nx).any fun x => (List.range m.ny).any fun y => m.data x y z

/-- `np.min` and `np.max` of an index array: raises numpy's empty-reduction
`ValueError` on an empty array. -/
def npMinMax (l : List Nat) : Except NpError (Nat × Nat) :=
  match l.min?, l.max? with
  | some lo, some hi => .ok (lo, hi)
  | _, _ => .error .valueError

/-- `np.clip(v, lo, hi)`. -/
def npClip (v lo hi : Int) : Int := max lo (min v hi)

/-- `atlas_report.py:bb`: minimum bounding box of the true voxels of a mask,
padded and clipped to the volume extent. -/
def bb (mask : Mask3) (padding : Nat) : Except NpError (Int × Int × Int × Int × Int × Int) := do
  let xnz := (List.range mask.nx).filter (xproj mask)
  let ynz := (List.range mask.ny).filter (yproj mask)
  let znz := (List.range mask.nz).filter (zproj mask)
  let (x0, x1) ← npMinMax xnz
  let (y0, y1) ← npMinMax ynz
  let (z0, z1) ← npMinMax znz
  return (npClip ((x0 : Int) - padding) 0 ((mask.nx : Int) - 1),
    npClip ((x1 : Int) + padding) 0 ((mask.nx : Int) - 1),
    npClip ((y0 : Int) - padding) 0 ((mask.ny : Int) - 1),
    npClip ((y1 : Int) + padding) 0 ((mask.ny : Int) - 1),
    npClip ((z0 : Int) - padding) 0 ((mask.nz : Int) - 1),
    npClip ((z1 : Int) + padding) 0 ((mask.nz : Int) - 1))

/-- The all-false 2×2×2 mask. -/
def allFalseMask : Mask3 := ⟨2, 2, 2, fun _ _ _ => false⟩

/-- Counterexample to C5 as stated: on an all-false mask, `bb` fails with the
implementation-specific empty-reduction `ValueError` coming from
`np.min` of an empty index array — not with the explicit `EmptyMaskError`
the claim demands. -/
theorem bb_empty_mask_counterexample :
    bb allFalseMask 4 = .error .valueError ∧
      (Except.error NpError.valueError :
        Except NpError (Int × Int × Int × Int × Int × Int))
        ≠ .error .emptyMaskError := by
  refine ⟨rfl, fun h => ?_⟩
  simp at h

/-- C5 (amended): on every mask with no true voxel (any padding), `bb` fails
with numpy's empty-reduction `ValueError` raised by the inner `np.min`
computation; no explicit `EmptyMaskError` exists in the code. -/
theorem bb_empty_mask_raises_value_error (mask : Mask3) (padding : Nat)
    (hempty : ∀ x y z, x < mask.nx → y < mask.ny → z < mask.nz → mask.data x y z = false) :
    bb mask padding = .error .valueError := by
  have hx0 : (List.range mask.nx).filter (xproj mask) = [] := by
    rw [List.filter_eq_nil_iff]
    intro x hxm
    intro hB
    unfold xproj at hB
    rcases List.any_eq_true.1 hB with ⟨y, hy, hz⟩
    rcases List.any_eq_true.1 hz with ⟨z, hzm, hdz⟩
    rw [hempty x y z (List.mem_range.1 hxm) (List.mem_range.1 hy) (List.mem_range.1 hzm)] at hdz
    exact Bool.false_ne_true hdz
  simp only [bb, hx0]
  rfl

/-- Witness for C5 (amended) at the all-false mask with zero padding. -/
theorem bb_empty_mask_raises_value_error_witness :
    bb allFalseMask 0 = .error .valueError :=
  bb_empty_mask_raises_value_error allFalseMask 0 (fun _ _ _ _ _ _ => rfl)

/-! ## VolumeMontager: `coronal_montage`

Embedding of `atlas_report.py:coronal_montage` and of `skimage`'s
`montage2d` (square grid of `ceil(sqrt(n_images))`, row-major tile placement,
zero fill).  `yy_indices` models `np.linspace(0, ny-1, n).astype(int)`: the
exact linspace value truncated toward zero by the `astype(int)` cast.  The
`rot` parameter is accepted (default 2 in the source) but — exactly as in the
source body — never applied to the sections. -/

structure Vol3 where
  nx : Nat
  ny : Nat
  nz : Nat
  data : Nat → Nat → Nat → ℚ

structure Img2 where
  h : Nat
  w : Nat
  pix : Nat → Nat → ℚ

/-- `yy = np.linspace(0, ny-1, n).astype(int)`: exact value
`i*(ny-1)/(n-1)` truncated (Nat division); for `n = 1` numpy produces `[0]`,
matched by Nat division by zero. -/
def yy_indices (ny n : Nat) : List Nat :=
  (List.range n).map fun i => i * (ny - 1) / (n - 1)

/-- `int(np.ceil(np.sqrt(n)))`: the least `g` with `n ≤ g * g` (an
executable characterisation of the ceiling of the square root). -/
def ceilSqrt (n : Nat) : Nat :=
  ((List.range (n + 2)).filter fun g => decide (n ≤ g * g)).headD 0

def zeroImg (hh ww : Nat) : Img2 := ⟨hh, ww, fun _ _ => 0⟩

/-- `skimage.util.montage.montage2d` with `fill=0` on a stack of `hh × ww`
images: row-major placement on a `g × g` grid, `g = ceil(sqrt(n_images))`,
zero fill for the grid cells beyond the stack. -/
def montage2d (tiles : List Img2) (hh ww : Nat) : Img2 :=
  ⟨ceilSqrt tiles.length * hh, ceilSqrt tiles.length * ww,
    fun r c =>
      (nthD tiles (r / hh * ceilSqrt tiles.length + c / ww) (zeroImg hh ww)).pix
        (r % hh) (c % ww)⟩

/-- The coronal section at y-index `y` after the
`np.transpose(img[:, yy, :], (1, 2, 0))` permutation: a `nz × nx` image with
`pix z x = img[x, y, z]`. -/
def sectionOf (v : Vol3) (y : Nat) : Img2 := ⟨v.nz, v.nx, fun z x => v.data x y z⟩

/-- `atlas_report.py:coronal_montage`.  The `rot` parameter appears in the
source signature and docstring but is not used by the source body. -/
def coronal_montage (img : Vol3) (n_rows n_cols : Nat) (rot : Nat) : Img2 :=
  montage2d ((yy_indices img.ny (n_rows * n_cols)).map (sectionOf img)) img.nz img.nx

/-- Claim-side `np.rot90`: one counter-clockwise quarter-turn. -/
def rot90 (t : Img2) : Img2 := ⟨t.w, t.h, fun r c => t.pix c (t.w - 1 - r)⟩

/-- Claim-side: `k` counter-clockwise quarter-turns. -/
def rotK (k : Nat) (t : Img2) : Img2 := Nat.iterate rot90 k t

/-- Claim-side: `np.round(np.linspace(0, ny-1, n))` as integers. -/
def roundLinspace (ny n : Nat) : List ℤ :=
  (List.range n).map fun i => roundHalfEven ((i : ℚ) * ((ny : ℚ) - 1) / ((n : ℚ) - 1))

/-- C7 (amended): `coronal_montage` extracts its `n_rows*n_cols` sections at
the truncated evenly-spaced indices `int(linspace(0, ny-1, n))` — section `k`
at y-index `k*(ny-1)/(n-1)` — and tiles them row-major into a `g × g` grid,
`g = ceil(sqrt(n))`, of total pixel size `g*nz × g*nx`; in particular for
`n_rows = n_cols = 2` and `ny = 4` this gives y-indices `[0,1,2,3]` and
total dimensions `2*nz × 2*nx`. -/
theorem coronal_montage_trunc_linspace_tiling (v : Vol3) (n_rows n_cols rot k z x : Nat)
    (hk : k < n_rows * n_cols) (hzz : z < v.nz) (hxx : x < v.nx) :
    (coronal_montage v n_rows n_cols rot).h = ceilSqrt (n_rows * n_cols) * v.nz ∧
    (coronal_montage v n_rows n_cols rot).w = ceilSqrt (n_rows * n_cols) * v.nx ∧
    (coronal_montage v n_rows n_cols rot).pix
        (k / ceilSqrt (n_rows * n_cols) * v.nz + z)
        (k % ceilSqrt (n_rows * n_cols) * v.nx + x)
      = v.data x (k * (v.ny - 1) / (n_rows * n_cols - 1)) z := by
  have hnz : 0 < v.nz := Nat.lt_of_le_of_lt (Nat.zero_le z) hzz
  have hnx : 0 < v.nx := Nat.lt_of_le_of_lt (Nat.zero_le x) hxx
  have hlen : ((yy_indices v.ny (n_rows * n_cols)).map (sectionOf v)).length
      = n_rows * n_cols := by
    simp [yy_indices]
  refine ⟨?_, ?_, ?_⟩
  · simp only [coronal_montage, montage2d, hlen]
  · simp only [coronal_montage, montage2d, hlen]
  · simp only [coronal_montage, montage2d, hlen]
    have h1 : (k / ceilSqrt (n_rows * n_cols) * v.nz + z) / v.nz
        = k / ceilSqrt (n_rows * n_cols) := by
      rw [Nat.add_comm, Nat.mul_comm, Nat.add_mul_div_left z _ hnz,
        Nat.div_eq_of_lt hzz, Nat.zero_add]
    have h2 : (k / ceilSqrt (n_rows * n_cols) * v.nz + z) % v.nz = z := by
      rw [Nat.add_comm, Nat.mul_comm, Nat.add_mul_mod_self_left, Nat.mod_eq_of_lt hzz]
    have h3 : (k % ceilSqrt (n_rows * n_cols) * v.nx + x) / v.nx
        = k % ceilSqrt (n_rows * n_cols) := by
      rw [Nat.add_comm, Nat.mul_comm, Nat.add_mul_div_left x _ hnx,
        Nat.div_eq_of_lt hxx, Nat.zero_add]
    have h4 : (k % ceilSqrt (n_rows * n_cols) * v.nx + x) % v.nx = x := by
      rw [Nat.add_comm, Nat.mul_comm, Nat.add_mul_mod_self_left, Nat.mod_eq_of_lt hxx]
    have h5 : k / ceilSqrt (n_rows * n_cols) * ceilSqrt (n_rows * n_cols)
        + k % ceilSqrt (n_rows * n_cols) = k := by
      rw [Nat.mul_comm]
      exact Nat.div_add_mod k _
    rw [h1, h2, h3, h4, h5]
    rw [nthD_map (sectionOf v) _ k _ 0 (by simpa [yy_indices] using hk)]
    unfold yy_indices
    rw [nthD_map _ _ _ _ 0 (by simpa using hk), nthD_range _ _ _ hk]
    rfl

/-- A 1×4×1 volume whose value at y-index `y` is `y`. -/
def vFour : Vol3 := ⟨1, 4, 1, fun _ y _ => (y : ℚ)⟩

/-- Witness for C7 (amended) at a 2×2 request on `ny = 4` with `k = 3`. -/
theorem coronal_montage_trunc_linspace_tiling_witness :
    (coronal_montage vFour 2 2 2).h = ceilSqrt (2 * 2) * vFour.nz ∧
    (coronal_montage vFour 2 2 2).w = ceilSqrt (2 * 2) * vFour.nx ∧
    (coronal_montage vFour 2 2 2).pix (3 / ceilSqrt (2 * 2) * vFour.nz + 0)
        (3 % ceilSqrt (2 * 2) * vFour.nx + 0)
      = vFour.data 0 (3 * (vFour.ny - 1) / (2 * 2 - 1)) 0 :=
  coronal_montage_trunc_linspace_tiling vFour 2 2 2 3 0 0 (by decide) (by decide) (by decide)

/-- A 1×3×1 volume whose value at y-index `y` is `y`. -/
def vRamp : Vol3 := ⟨1, 3, 1, fun _ y _ => (y : ℚ)⟩

/-- Counterexample to C7 as stated: for an `n_rows = n_cols = 2` request on a
volume with `ny = 3`, the code's truncating `astype(int)` yields section
indices `[0, 0, 1, 2]`, whereas the claimed `round(linspace(0, 2, 4))` yields
`[0, 1, 1, 2]`; concretely tile 1 of the montage holds the section at
y-index 0 (pixel value 0), not the claimed section at y-index 1 (value 1). -/
theorem coronal_montage_round_counterexample :
    yy_indices 3 4 = [0, 0, 1, 2] ∧
    roundLinspace 3 4 = [0, 1, 1, 2] ∧
    (coronal_montage vRamp 2 2 2).pix 0 1 = 0 ∧
    vRamp.data 0 1 0 = 1 ∧ (0 : ℚ) ≠ 1 := by
  have hrange : List.range 4 = [0, 1, 2, 3] := by decide
  refine ⟨by decide, ?_, ?_, ?_, by norm_num⟩
  · have hf1 : Int.fract ((2 : ℚ)/3) = 2/3 := by norm_num
    have hf2 : Int.fract ((4 : ℚ)/3) = 1/3 := by
      rw [show (4 : ℚ)/3 = 1/3 + (1 : ℤ) by push_cast; ring, Int.fract_add_int]
      norm_num
    unfold roundLinspace roundHalfEven
    rw [hrange]
    norm_num [hf1, hf2]
  · show ((0 : Nat) : ℚ) = 0
    exact Nat.cast_zero
  · show ((1 : Nat) : ℚ) = 1
    exact Nat.cast_one

/-- A 2×1×1 volume with values 0, 1 along the first axis. -/
def vEdge : Vol3 := ⟨2, 1, 1, fun x _ _ => (x : ℚ)⟩

/-- C8 (code bug evaluation): the `rot` parameter of `coronal_montage`
(documented in the source as CCW quarter-turns to apply to each section,
default 2) is never used by the source body: with `rot = 2`, each output tile
equals the unrotated section (pixels `(0,0), (0,1)` are `0, 1`), while the
claimed 180°-rotated section has those pixels equal to `1, 0`. -/
theorem coronal_montage_ignores_rot :
    (coronal_montage vEdge 1 1 2).pix 0 0 = (sectionOf vEdge 0).pix 0 0 ∧
    (coronal_montage vEdge 1 1 2).pix 0 1 = (sectionOf vEdge 0).pix 0 1 ∧
    (rotK 2 (sectionOf vEdge 0)).pix 0 0 = 1 ∧
    (rotK 2 (sectionOf vEdge 0)).pix 0 1 = 0 ∧
    (coronal_montage vEdge 1 1 2).pix 0 0 = 0 ∧
    (coronal_montage vEdge 1 1 2).pix 0 1 = 1 ∧
    (0 : ℚ) ≠ 1 := by
  refine ⟨rfl, rfl, ?_, ?_, ?_, ?_, by norm_num⟩
  · show ((1 : Nat) : ℚ) = 1
    exact Nat.cast_one
  · show ((0 : Nat) : ℚ) = 0
    exact Nat.cast_zero
  · show ((0 : Nat) : ℚ) = 0
    exact Nat.cast_zero
  · show ((1 : Nat) : ℚ) = 1
    exact Nat.cast_one
